import Mathlib

/-!
Verification of the transcript metrics aggregator of the `cstatus` statusline
program (packages `claude` and `render` of the Go source).

Shallow embedding conventions:

* An instant (`time.Time`) is modelled by `GoTime`: `ms` is the absolute
  instant in milliseconds measured from Go's zero time
  (0001-01-01T00:00:00 UTC), and `offset` is the fixed zone offset of the
  value in milliseconds east of UTC.  Timestamps in this program come from
  `time.Parse(time.RFC3339, _)`, which always yields a fixed-offset (or UTC)
  location, so a fixed offset is an exact model of the location.  The model
  works at millisecond resolution, the resolution at which the program does
  all of its arithmetic (`Milliseconds()`, `UnixMilli`, `sessionDurationMs`).
  `t.IsZero()` holds exactly when `ms = 0`.  Go's `UnixMilli` differs from
  `ms` by the constant spanning 0001..1970; in `calculateBlockStart` the
  constant is added back by `time.UnixMilli`, so it cancels and the model
  uses `ms` directly (the constant is a whole number of hours, so the
  hour-grid is also unaffected).
* A transcript line is a `Line`: `blank` (trims to the empty string),
  `invalid` (fails `json.Unmarshal`), or `entry e` for a decoded
  `TranscriptEntry`.
* The `timestamp` string field of an entry is modelled by `TsField`:
  `empty` for the empty string, `malformed` for a non-empty string rejected
  by `time.Parse(time.RFC3339, _)`, and `valid t` for one parsing to the
  instant `t`.
* Go `int64` token counts are modelled by `Int`; none of the verified
  claims concerns 64-bit wrap-around.
-/

/-- Model of a Go `time.Time` with a fixed-offset location: absolute instant
in milliseconds since Go's zero time, and the zone offset in milliseconds. -/
structure GoTime where
  ms : Int
  offset : Int
  deriving DecidableEq, Repr

/-- Model of the `Usage` struct (`claude.go` lines 106-111 and `jsonl.go`
lines 34-39): the four `int64` token counters of one usage record. -/
structure Usage where
  inputTokens : Int
  outputTokens : Int
  cacheReadInputTokens : Int
  cacheCreationInputTokens : Int
  deriving DecidableEq, Repr

/-- Model of the `timestamp` string field of a transcript entry, classified
by what `entry.Timestamp != ""` and `time.Parse(time.RFC3339, _)` do to it. -/
inductive TsField where
  | empty : TsField
  | malformed : TsField
  | valid : GoTime → TsField
  deriving DecidableEq, Repr

/-- Model of the `Message` struct (`claude.go` lines 102-104): an optional
usage record. -/
structure Message where
  usage : Option Usage
  deriving DecidableEq, Repr

/-- Model of the `TranscriptEntry` struct (`claude.go` lines 96-100 and
`jsonl.go` lines 22-26). -/
structure TranscriptEntry where
  timestamp : TsField
  isSidechain : Bool
  message : Option Message
  deriving DecidableEq, Repr

/-- Model of one physical transcript line as seen by the scan loop: blank
after trimming, rejected by `json.Unmarshal`, or a decoded entry. -/
inductive Line where
  | blank : Line
  | invalid : Line
  | entry : TranscriptEntry → Line
  deriving DecidableEq, Repr

/-- Model of the `ClaudeTokenMetrics` / `render.TokenMetrics` struct. -/
structure ClaudeTokenMetrics where
  inputTokens : Int
  outputTokens : Int
  cachedTokens : Int
  totalTokens : Int
  contextLength : Int
  deriving DecidableEq, Repr

/-- Model of the `ClaudeBlockMetrics` / `render.BlockMetrics` struct. -/
structure ClaudeBlockMetrics where
  startTime : GoTime
  lastActivity : GoTime
  deriving DecidableEq, Repr

/-- Running state of the scan loop of `parseMetrics` (`claude.go` lines
146-148) and `ParseTokenMetrics` (`jsonl.go` lines 59-61): the token
counters, the `mostRecentTimestamp` variable (a `time.Time`, zero-valued at
start, so modelled by its instant with 0 meaning `IsZero`), and the
`mostRecentMainChainEntry` pointer. -/
structure ParseState where
  inputTokens : Int
  outputTokens : Int
  cachedTokens : Int
  mostRecentTimestamp : Int
  mostRecentMainChainEntry : Option TranscriptEntry
  deriving DecidableEq, Repr

/-- Initial scan state: all counters zero, `mostRecentTimestamp` the zero
`time.Time`, no entry tracked. -/
def initialParseState : ParseState :=
  { inputTokens := 0, outputTokens := 0, cachedTokens := 0,
    mostRecentTimestamp := 0, mostRecentMainChainEntry := none }

/-- One iteration of the scan loop, `claude.go` lines 151-184 =
`jsonl.go` lines 64-91 (the two loops are line-for-line identical up to
logging).  Blank and undecodable lines are skipped; a decoded entry with a
usage record is summed into the counters; a main-chain entry with a
non-empty, parseable timestamp replaces the tracked entry when the stored
`mostRecentTimestamp.IsZero()` or the entry's instant is strictly `After`
it. -/
def processLine (s : ParseState) (l : Line) : ParseState :=
  match l with
  | Line.blank => s
  | Line.invalid => s
  | Line.entry e =>
    match e.message with
    | none => s
    | some msg =>
      match msg.usage with
      | none => s
      | some u =>
        let s1 : ParseState :=
          { s with
            inputTokens := s.inputTokens + u.inputTokens,
            outputTokens := s.outputTokens + u.outputTokens,
            cachedTokens := s.cachedTokens + u.cacheReadInputTokens
              + u.cacheCreationInputTokens }
        if e.isSidechain then s1
        else
          match e.timestamp with
          | TsField.empty => s1
          | TsField.malformed => s1
          | TsField.valid t =>
            if s1.mostRecentTimestamp = 0 ∨ t.ms > s1.mostRecentTimestamp then
              { s1 with mostRecentTimestamp := t.ms,
                        mostRecentMainChainEntry := some e }
            else s1

/-- Context length derived from the tracked entry after the scan,
`claude.go` lines 186-190 = `jsonl.go` lines 93-97: the winning entry's
input + cache-read + cache-creation tokens, or 0 when no entry won. -/
def contextLengthOf (s : ParseState) : Int :=
  match s.mostRecentMainChainEntry with
  | none => 0
  | some e =>
    match e.message with
    | none => 0
    | some msg =>
      match msg.usage with
      | none => 0
      | some u => u.inputTokens + u.cacheReadInputTokens
          + u.cacheCreationInputTokens

/-- Token-metrics result of scanning a whole transcript: the scan loop of
`claude.go` lines 150-200 = `jsonl.go` lines 63-107, packaged into the
result struct with `totalTokens` the grand sum. -/
def parseTokenMetrics (lines : List Line) : ClaudeTokenMetrics :=
  let s := lines.foldl processLine initialParseState
  { inputTokens := s.inputTokens,
    outputTokens := s.outputTokens,
    cachedTokens := s.cachedTokens,
    totalTokens := s.inputTokens + s.outputTokens + s.cachedTokens,
    contextLength := contextLengthOf s }

/-- Usage record a line contributes to the running counters: present exactly
when the line decodes and `entry.Message != nil && entry.Message.Usage !=
nil`, regardless of chain membership or timestamp. -/
def lineUsage (l : Line) : Option Usage :=
  match l with
  | Line.entry e =>
    match e.message with
    | some msg => msg.usage
    | none => none
  | _ => none

/-- Context-length candidate carried by a line: its parsed instant and usage
record, present exactly when the line decodes to a main-chain entry with a
usage record and a parseable timestamp (the conditions of `claude.go` lines
165 and 173-174). -/
def candidateOf (l : Line) : Option (GoTime × Usage) :=
  match l with
  | Line.entry e =>
    match e.message with
    | none => none
    | some msg =>
      match msg.usage with
      | none => none
      | some u =>
        if e.isSidechain then none
        else
          match e.timestamp with
          | TsField.valid t => some (t, u)
          | _ => none
  | _ => none

/-- Modelled from the spec: one step of the selection the specification's
words describe — replace the best candidate only on a strictly later
instant, so ties among equal instants keep the first seen in file order. -/
def specStep (best : Option (Int × Usage)) (l : Line) : Option (Int × Usage) :=
  match candidateOf l with
  | none => best
  | some (t, u) =>
    match best with
    | none => some (t.ms, u)
    | some (b, bu) => if t.ms > b then some (t.ms, u) else some (b, bu)

/-- Modelled from the spec: the winning context-length candidate according
to the specification's words — among candidate lines, the one with the
strictly latest instant, ties among equal instants keeping the first seen
in file order. -/
def specBestCandidate (lines : List Line) : Option (Int × Usage) :=
  lines.foldl specStep none

/-- Modelled from the spec: the context length the specification describes —
the winning candidate's input + cache-read + cache-creation tokens, or 0
when no candidate exists. -/
def specContextLength (lines : List Line) : Int :=
  match specBestCandidate lines with
  | none => 0
  | some (_, u) => u.inputTokens + u.cacheReadInputTokens
      + u.cacheCreationInputTokens

/-- Predicate on lines distinguishing decoded entries from blank/invalid
lines; the invalid lines of the skip-malformed property are exactly the
lines where this is `false`. -/
def Line.isValid (l : Line) : Bool :=
  match l with
  | Line.entry _ => true
  | _ => false

/-- Model of the constant `sessionDurationMs = int64(5 * 60 * 60 * 1000)`
(`claude.go` line 127): five hours in milliseconds. -/
def sessionDurationMs : Int := 5 * 60 * 60 * 1000

/-- Model of one hour in milliseconds, the grid used by `floorToHour`. -/
def hourMs : Int := 60 * 60 * 1000

/-- Backward walk of `findContinuousWorkStart` (`claude.go` lines 301-308)
on the reversed tail: `cur` is the current `continuousWorkStart` candidate
(initially the last timestamp) and the list holds the earlier timestamps in
reverse order.  At each step the gap between the candidate and the previous
timestamp is compared to the threshold: at least the threshold breaks the
loop, otherwise the candidate moves to the previous timestamp. -/
def fcwsGo (sd : Int) : GoTime → List GoTime → GoTime
  | cur, [] => cur
  | cur, prev :: rest =>
    if cur.ms - prev.ms ≥ sd then cur else fcwsGo sd prev rest

/-- Model of `findContinuousWorkStart` (`claude.go` lines 296-310): for the
empty slice Go returns the zero `time.Time` (UTC); otherwise the backward
walk starts from the last element. -/
def findContinuousWorkStart (sd : Int) (timestamps : List GoTime) : GoTime :=
  match timestamps.reverse with
  | [] => { ms := 0, offset := 0 }
  | last :: rest => fcwsGo sd last rest

/-- Model of `floorToHour` (`claude.go` lines 313-315):
`time.Date(t.Year(), t.Month(), t.Day(), t.Hour(), 0, 0, 0, t.Location())`.
For a fixed-offset location the civil fields are a bijection of the local
epoch milliseconds `t.ms + t.offset`; zeroing minutes, seconds and
nanoseconds while keeping year, month, day and hour floors the local epoch
milliseconds to a multiple of one hour, and the location is preserved. -/
def floorToHour (t : GoTime) : GoTime :=
  { ms := t.ms - (t.ms + t.offset) % hourMs, offset := t.offset }

/-- Model of `calculateBlockStart` (`claude.go` lines 318-326).  Durations
are differences of instants in milliseconds.  Go's `/` truncates toward
zero, which agrees with Lean's `/` (Euclidean division) here because in the
taken branch `totalWorkTime > sd` and the claims instantiate `sd` with the
positive constant `sessionDurationMs`.  The advancement branch rebuilds the
result with `time.UnixMilli`, whose location is the process-local zone,
modelled by the `localOffset` parameter. -/
def calculateBlockStart (now flooredWorkStart : GoTime) (localOffset : Int)
    (sd : Int) : GoTime :=
  let totalWorkTime := now.ms - flooredWorkStart.ms
  if totalWorkTime > sd then
    let completedBlocks := totalWorkTime / sd
    { ms := flooredWorkStart.ms + completedBlocks * sd, offset := localOffset }
  else flooredWorkStart

/-- Model of `calculateBlockMetrics` (`claude.go` lines 267-293): absent for
an empty sequence; absent when the last timestamp is more than one block
duration before `now`; otherwise the block start is the continuous-work
start floored to the hour and then advanced by `calculateBlockStart`, and
the last activity is the last timestamp. -/
def calculateBlockMetrics (now : GoTime) (localOffset : Int)
    (timestamps : List GoTime) : Option ClaudeBlockMetrics :=
  match timestamps.getLast? with
  | none => none
  | some mostRecent =>
    if now.ms - mostRecent.ms > sessionDurationMs then none
    else
      let continuousWorkStart := findContinuousWorkStart sessionDurationMs timestamps
      let flooredWorkStart := floorToHour continuousWorkStart
      let blockStart := calculateBlockStart now flooredWorkStart localOffset sessionDurationMs
      some { startTime := blockStart, lastActivity := mostRecent }

/-- Boolean test that a timestamp sequence is chronologically ascending
(each adjacent pair nondecreasing in instant), the input contract of
`calculateBlockMetrics` established by the sort in `extractTimestamps`. -/
def tsSortedB : List GoTime → Bool
  | [] => true
  | [_] => true
  | a :: b :: rest => decide (a.ms ≤ b.ms) && tsSortedB (b :: rest)

/-- Propositional form of `tsSortedB`. -/
def tsSorted (l : List GoTime) : Prop := tsSortedB l = true

instance (l : List GoTime) : Decidable (tsSorted l) := by
  unfold tsSorted
  infer_instance

/-- Timestamps collected by `extractTimestamps` (`claude.go` lines 232-252)
before sorting: the parsed instant of every line that decodes and has a
non-empty, parseable timestamp, in file order, regardless of chain
membership or usage. -/
def extractTimestampsFromLines (lines : List Line) : List GoTime :=
  lines.foldr
    (fun l acc =>
      match l with
      | Line.entry e =>
        match e.timestamp with
        | TsField.valid t => t :: acc
        | _ => acc
      | _ => acc)
    []

/-- Insertion of one timestamp into a list sorted ascending by instant. -/
def insertByMs (t : GoTime) : List GoTime → List GoTime
  | [] => [t]
  | a :: rest => if t.ms ≤ a.ms then t :: a :: rest else a :: insertByMs t rest

/-- Ascending-by-instant sort, modelling `sort.Slice(timestamps, Before)`
(`claude.go` lines 259-261).  `sort.Slice` is not stable; no verified claim
depends on the relative order of equal instants. -/
def sortByMs (l : List GoTime) : List GoTime := l.foldr insertByMs []

/-- Model of `parseBlockMetricsFromFile` (`claude.go` lines 213-229) after
the rewind: extract and sort the timestamps, return absent for none,
otherwise defer to `calculateBlockMetrics`. -/
def parseBlockMetricsFromLines (now : GoTime) (localOffset : Int)
    (lines : List Line) : Option ClaudeBlockMetrics :=
  let timestamps := sortByMs (extractTimestampsFromLines lines)
  match timestamps with
  | [] => none
  | _ => calculateBlockMetrics now localOffset timestamps

/-- Model of the facade `parseMetrics` (`claude.go` lines 129-210).  The
file system is a function from paths to `Option (List Line)`, `none`
meaning the file cannot be opened (missing, permission denied).  The result
triple mirrors Go's `(*ClaudeTokenMetrics, *ClaudeBlockMetrics, error)`
with `Option Unit` for the error (`none` = nil error).  An empty path and
an unopenable file both return `(nil, nil, nil)`. -/
def parseMetricsFacade (fs : String → Option (List Line)) (now : GoTime)
    (localOffset : Int) (transcriptPath : String) :
    Option ClaudeTokenMetrics × Option ClaudeBlockMetrics × Option Unit :=
  if transcriptPath = "" then (none, none, none)
  else
    match fs transcriptPath with
    | none => (none, none, none)
    | some lines =>
      (some (parseTokenMetrics lines),
       parseBlockMetricsFromLines now localOffset lines,
       none)

/-- Model of the facade `render.ParseTokenMetrics` (`jsonl.go` lines
48-108): an empty path and an unopenable file both return the zero-valued
`&TokenMetrics{}`; otherwise the shared scan loop runs. -/
def renderParseTokenMetrics (fs : String → Option (List Line))
    (transcriptPath : String) : ClaudeTokenMetrics :=
  if transcriptPath = "" then
    { inputTokens := 0, outputTokens := 0, cachedTokens := 0,
      totalTokens := 0, contextLength := 0 }
  else
    match fs transcriptPath with
    | none =>
      { inputTokens := 0, outputTokens := 0, cachedTokens := 0,
        totalTokens := 0, contextLength := 0 }
    | some lines => parseTokenMetrics lines

/-- All-zero token metrics, the Go zero value `TokenMetrics{}`. -/
def zeroTokenMetrics : ClaudeTokenMetrics :=
  { inputTokens := 0, outputTokens := 0, cachedTokens := 0,
    totalTokens := 0, contextLength := 0 }

/-- Boolean test that a line carries a parseable timestamp (a decoded entry
whose `timestamp` string is non-empty and accepted by `time.Parse`). -/
def lineHasValidTs (l : Line) : Bool :=
  match l with
  | Line.entry e =>
    match e.timestamp with
    | TsField.valid _ => true
    | _ => false
  | _ => false

/-- Boolean test that a line is a context-length candidate whose parsed
instant is exactly Go's zero time: the one situation in which the
`mostRecentTimestamp.IsZero()` sentinel of the scan loop misfires. -/
def candidateMsIsZero (l : Line) : Bool :=
  match candidateOf l with
  | some (t, _) => decide (t.ms = 0)
  | none => false

/-- Correspondence between the scan loop's tracking state and the best
candidate of the specification's selection: either neither has seen a
candidate (and the sentinel is still the zero time), or both hold the same
winning instant — a non-zero one, so the sentinel cannot misfire — and the
tracked entry carries the winning usage record. -/
def trackInv (s : ParseState) (b : Option (Int × Usage)) : Prop :=
  match b, s.mostRecentMainChainEntry with
  | none, none => s.mostRecentTimestamp = 0
  | some (bt, bu), some e =>
      s.mostRecentTimestamp = bt ∧ bt ≠ 0 ∧
      ∃ msg, e.message = some msg ∧ msg.usage = some bu
  | _, _ => False

/-- Concrete transcript for the token-sum scenario: a side-chain entry with
usage (60, 30, 20, 5), a main-chain entry with usage (40, 20, 0, 0), a
blank line and an undecodable line; entry totals are input 100, output 50,
cache-read 20, cache-creation 5, and no line has a parseable timestamp. -/
def exC9 : List Line :=
  [Line.blank,
   Line.entry ⟨TsField.empty, true, some ⟨some ⟨60, 30, 20, 5⟩⟩⟩,
   Line.invalid,
   Line.entry ⟨TsField.malformed, false, some ⟨some ⟨40, 20, 0, 0⟩⟩⟩]

/-- Concrete transcript for the context-length selection scenario: three
main-chain entries with usage and increasing instants 1000 < 2000 < 3000,
and one side-chain entry with usage at the strictly latest instant 4000. -/
def exSel : List Line :=
  [Line.entry ⟨TsField.valid ⟨1000, 0⟩, false, some ⟨some ⟨10, 1, 2, 3⟩⟩⟩,
   Line.entry ⟨TsField.valid ⟨2000, 0⟩, false, some ⟨some ⟨20, 0, 5, 5⟩⟩⟩,
   Line.entry ⟨TsField.valid ⟨3000, 0⟩, false, some ⟨some ⟨40, 9, 1, 1⟩⟩⟩,
   Line.entry ⟨TsField.valid ⟨4000, 0⟩, true, some ⟨some ⟨100, 100, 100, 100⟩⟩⟩]

/-- Concrete transcript on which the latest-entry selection of the scan
loop misfires: a main-chain usage-bearing entry whose timestamp
`0001-01-01T00:00:00Z` parses to Go's zero time (instant 0), followed by a
main-chain usage-bearing entry at the strictly earlier instant -1000
(timestamp `0000-12-31T23:59:59Z`).  After the first entry is stored,
`mostRecentTimestamp.IsZero()` still holds, so the second, earlier entry
replaces it. -/
def exC1zero : List Line :=
  [Line.entry ⟨TsField.valid ⟨0, 0⟩, false, some ⟨some ⟨7, 0, 0, 0⟩⟩⟩,
   Line.entry ⟨TsField.valid ⟨-1000, 0⟩, false, some ⟨some ⟨3, 0, 0, 0⟩⟩⟩]

/-! Helper lemmas about the scan loop. -/

theorem processLine_blank (s : ParseState) : processLine s Line.blank = s := rfl

theorem processLine_invalid (s : ParseState) : processLine s Line.invalid = s := rfl

theorem processLine_of_not_isValid (s : ParseState) (l : Line)
    (h : Line.isValid l = false) : processLine s l = s := by
  cases l with
  | blank => rfl
  | invalid => rfl
  | entry e => simp [Line.isValid] at h

theorem foldl_processLine_filter (lines : List Line) :
    ∀ s : ParseState,
      (lines.filter Line.isValid).foldl processLine s = lines.foldl processLine s := by
  induction lines with
  | nil => intro s; rfl
  | cons l rest ih =>
    intro s
    by_cases h : Line.isValid l
    · simp [List.filter_cons, h, List.foldl_cons, ih]
    · have h' : Line.isValid l = false := by simpa using h
      simp [List.filter_cons, h', List.foldl_cons, ih,
        processLine_of_not_isValid s l h']

/-- Counter increments contributed by one line. -/
def usageContribution (f : Usage → Int) (l : Line) : Int :=
  match lineUsage l with
  | some u => f u
  | none => 0

theorem processLine_counters (s : ParseState) (l : Line) :
    (processLine s l).inputTokens
        = s.inputTokens + usageContribution Usage.inputTokens l
    ∧ (processLine s l).outputTokens
        = s.outputTokens + usageContribution Usage.outputTokens l
    ∧ (processLine s l).cachedTokens
        = s.cachedTokens + usageContribution
            (fun u => u.cacheReadInputTokens + u.cacheCreationInputTokens) l := by
  cases l with
  | blank => simp [processLine, usageContribution, lineUsage]
  | invalid => simp [processLine, usageContribution, lineUsage]
  | entry e =>
    cases hm : e.message with
    | none => simp [processLine, usageContribution, lineUsage, hm]
    | some msg =>
      cases hu : msg.usage with
      | none => simp [processLine, usageContribution, lineUsage, hm, hu]
      | some u =>
        simp only [processLine, usageContribution, lineUsage, hm, hu]
        cases e.isSidechain with
        | true => simp [add_assoc]
        | false =>
          cases e.timestamp with
          | empty => simp [add_assoc]
          | malformed => simp [add_assoc]
          | valid t =>
            split <;> (try split) <;> (try split) <;> simp [add_assoc]

theorem foldl_processLine_inputTokens (lines : List Line) :
    ∀ s : ParseState,
      (lines.foldl processLine s).inputTokens
        = s.inputTokens + ((lines.filterMap lineUsage).map Usage.inputTokens).sum := by
  induction lines with
  | nil => intro s; simp
  | cons l rest ih =>
    intro s
    have hc := (processLine_counters s l).1
    cases hl : lineUsage l with
    | none =>
      simp [List.foldl_cons, ih, List.filterMap_cons, hl, hc,
        usageContribution]
    | some u =>
      simp [List.foldl_cons, ih, List.filterMap_cons, hl, hc,
        usageContribution]
      ring

theorem foldl_processLine_outputTokens (lines : List Line) :
    ∀ s : ParseState,
      (lines.foldl processLine s).outputTokens
        = s.outputTokens + ((lines.filterMap lineUsage).map Usage.outputTokens).sum := by
  induction lines with
  | nil => intro s; simp
  | cons l rest ih =>
    intro s
    have hc := (processLine_counters s l).2.1
    cases hl : lineUsage l with
    | none =>
      simp [List.foldl_cons, ih, List.filterMap_cons, hl, hc,
        usageContribution]
    | some u =>
      simp [List.foldl_cons, ih, List.filterMap_cons, hl, hc,
        usageContribution]
      ring

theorem foldl_processLine_cachedTokens (lines : List Line) :
    ∀ s : ParseState,
      (lines.foldl processLine s).cachedTokens
        = s.cachedTokens + ((lines.filterMap lineUsage).map
            (fun u => u.cacheReadInputTokens + u.cacheCreationInputTokens)).sum := by
  induction lines with
  | nil => intro s; simp
  | cons l rest ih =>
    intro s
    have hc := (processLine_counters s l).2.2
    cases hl : lineUsage l with
    | none =>
      simp [List.foldl_cons, ih, List.filterMap_cons, hl, hc,
        usageContribution]
    | some u =>
      simp [List.foldl_cons, ih, List.filterMap_cons, hl, hc,
        usageContribution]
      ring

theorem processLine_track_of_candidate_none (s : ParseState) (l : Line)
    (h : candidateOf l = none) :
    (processLine s l).mostRecentTimestamp = s.mostRecentTimestamp
    ∧ (processLine s l).mostRecentMainChainEntry = s.mostRecentMainChainEntry := by
  cases l with
  | blank => exact ⟨rfl, rfl⟩
  | invalid => exact ⟨rfl, rfl⟩
  | entry e =>
    cases hm : e.message with
    | none => simp [processLine, hm]
    | some msg =>
      cases hu : msg.usage with
      | none => simp [processLine, hm, hu]
      | some u =>
        simp only [processLine, hm, hu]
        cases hs : e.isSidechain with
        | true => simp
        | false =>
          cases ht : e.timestamp with
          | empty => simp
          | malformed => simp
          | valid t =>
            exfalso
            simp [candidateOf, hm, hu, hs, ht] at h

theorem foldl_processLine_track_none (lines : List Line) :
    ∀ s : ParseState, (∀ l ∈ lines, lineHasValidTs l = false) →
      (lines.foldl processLine s).mostRecentMainChainEntry
        = s.mostRecentMainChainEntry := by
  induction lines with
  | nil => intro s _; rfl
  | cons l rest ih =>
    intro s h
    have hl : lineHasValidTs l = false := h l (List.mem_cons_self l rest)
    have hcand : candidateOf l = none := by
      cases l with
      | blank => rfl
      | invalid => rfl
      | entry e =>
        cases hm : e.message with
        | none => simp [candidateOf, hm]
        | some msg =>
          cases hu : msg.usage with
          | none => simp [candidateOf, hm, hu]
          | some u =>
            cases ht : e.timestamp with
            | empty => simp [candidateOf, hm, hu, ht]
            | malformed => simp [candidateOf, hm, hu, ht]
            | valid t => simp [lineHasValidTs, ht] at hl
    have hrest : ∀ l' ∈ rest, lineHasValidTs l' = false :=
      fun l' hl' => h l' (List.mem_cons_of_mem l hl')
    calc (List.foldl processLine (processLine s l) rest).mostRecentMainChainEntry
        = (processLine s l).mostRecentMainChainEntry := ih (processLine s l) hrest
      _ = s.mostRecentMainChainEntry :=
          (processLine_track_of_candidate_none s l hcand).2

/-- C2: for every transcript mixing valid and invalid lines (blank lines,
lines failing JSON decoding, lines of the wrong shape), the computed
token metrics equal those of the same transcript with all invalid lines
removed: invalid lines contribute nothing and never abort the scan. -/
theorem tokenMetrics_skip_malformed (lines : List Line) :
    parseTokenMetrics lines = parseTokenMetrics (lines.filter Line.isValid) := by
  unfold parseTokenMetrics
  rw [foldl_processLine_filter]

/-- C9: the token counters sum every usage record regardless of chain
membership or timestamp presence, cached tokens are cache-read plus
cache-creation, total is input + output + cached; lines lacking a
parseable timestamp are summed but never produce a latest-main-chain
candidate (context length stays 0 when no line has one); and the concrete
scenario with entry totals input 100, output 50, cache-read 20,
cache-creation 5 yields exactly (100, 50, 25, 175). -/
theorem tokenMetrics_sums_all_usage (lines : List Line) :
    (parseTokenMetrics lines).inputTokens
        = ((lines.filterMap lineUsage).map Usage.inputTokens).sum
    ∧ (parseTokenMetrics lines).outputTokens
        = ((lines.filterMap lineUsage).map Usage.outputTokens).sum
    ∧ (parseTokenMetrics lines).cachedTokens
        = ((lines.filterMap lineUsage).map
            (fun u => u.cacheReadInputTokens + u.cacheCreationInputTokens)).sum
    ∧ (parseTokenMetrics lines).totalTokens
        = (parseTokenMetrics lines).inputTokens
          + (parseTokenMetrics lines).outputTokens
          + (parseTokenMetrics lines).cachedTokens
    ∧ ((∀ l ∈ lines, lineHasValidTs l = false) →
        (parseTokenMetrics lines).contextLength = 0)
    ∧ parseTokenMetrics exC9
        = { inputTokens := 100, outputTokens := 50, cachedTokens := 25,
            totalTokens := 175, contextLength := 0 } := by
  refine ⟨?_, ?_, ?_, ?_, ?_, ?_⟩
  · simpa [parseTokenMetrics, initialParseState]
      using foldl_processLine_inputTokens lines initialParseState
  · simpa [parseTokenMetrics, initialParseState]
      using foldl_processLine_outputTokens lines initialParseState
  · simpa [parseTokenMetrics, initialParseState]
      using foldl_processLine_cachedTokens lines initialParseState
  · simp [parseTokenMetrics]
  · intro h
    have h2 := foldl_processLine_track_none lines initialParseState h
    show contextLengthOf (List.foldl processLine initialParseState lines) = 0
    unfold contextLengthOf
    rw [h2]
    rfl
  · decide

/-- Closed witness for the token-sum theorem: its no-parseable-timestamp
conjunct applied to the concrete scenario transcript. -/
theorem tokenMetrics_sums_all_usage_witness :
    (∀ l ∈ exC9, lineHasValidTs l = false)
    ∧ (parseTokenMetrics exC9).contextLength = 0 :=
  ⟨by decide, (tokenMetrics_sums_all_usage exC9).2.2.2.2.1 (by decide)⟩

theorem trackInv_congr (s s' : ParseState) (b : Option (Int × Usage))
    (h1 : s'.mostRecentTimestamp = s.mostRecentTimestamp)
    (h2 : s'.mostRecentMainChainEntry = s.mostRecentMainChainEntry)
    (h : trackInv s b) : trackInv s' b := by
  unfold trackInv at h ⊢
  rw [h1, h2]
  exact h

theorem processLine_candidate_pos (s : ParseState) (e : TranscriptEntry)
    (msg : Message) (u : Usage) (t : GoTime)
    (hm : e.message = some msg) (hu : msg.usage = some u)
    (hs : e.isSidechain = false) (ht : e.timestamp = TsField.valid t)
    (hc : s.mostRecentTimestamp = 0 ∨ t.ms > s.mostRecentTimestamp) :
    processLine s (Line.entry e)
      = { inputTokens := s.inputTokens + u.inputTokens,
          outputTokens := s.outputTokens + u.outputTokens,
          cachedTokens := s.cachedTokens + u.cacheReadInputTokens
            + u.cacheCreationInputTokens,
          mostRecentTimestamp := t.ms,
          mostRecentMainChainEntry := some e } := by
  simp only [processLine, hm, hu, hs, ht, Bool.false_eq_true, if_false]
  split
  · rfl
  · rename_i hcond
    exact absurd hc hcond

theorem processLine_candidate_neg (s : ParseState) (e : TranscriptEntry)
    (msg : Message) (u : Usage) (t : GoTime)
    (hm : e.message = some msg) (hu : msg.usage = some u)
    (hs : e.isSidechain = false) (ht : e.timestamp = TsField.valid t)
    (hc : ¬ (s.mostRecentTimestamp = 0 ∨ t.ms > s.mostRecentTimestamp)) :
    processLine s (Line.entry e)
      = { inputTokens := s.inputTokens + u.inputTokens,
          outputTokens := s.outputTokens + u.outputTokens,
          cachedTokens := s.cachedTokens + u.cacheReadInputTokens
            + u.cacheCreationInputTokens,
          mostRecentTimestamp := s.mostRecentTimestamp,
          mostRecentMainChainEntry := s.mostRecentMainChainEntry } := by
  simp only [processLine, hm, hu, hs, ht, Bool.false_eq_true, if_false]
  split
  · rename_i hcond
    exact absurd hcond hc
  · rfl

theorem specStep_candidate_none (l : Line) (t : GoTime) (u : Usage)
    (hcand : candidateOf l = some (t, u)) :
    specStep none l = some (t.ms, u) := by
  simp [specStep, hcand]

theorem specStep_candidate_some (l : Line) (t : GoTime) (u : Usage)
    (bt : Int) (bu : Usage) (hcand : candidateOf l = some (t, u)) :
    specStep (some (bt, bu)) l
      = if t.ms > bt then some (t.ms, u) else some (bt, bu) := by
  simp [specStep, hcand]

theorem candidateOf_inversion (l : Line) (t : GoTime) (u : Usage)
    (hcand : candidateOf l = some (t, u)) :
    ∃ e msg, l = Line.entry e ∧ e.message = some msg ∧ msg.usage = some u
      ∧ e.isSidechain = false ∧ e.timestamp = TsField.valid t := by
  cases l with
  | blank => simp [candidateOf] at hcand
  | invalid => simp [candidateOf] at hcand
  | entry e =>
    cases hm : e.message with
    | none => simp [candidateOf, hm] at hcand
    | some msg =>
      cases hu : msg.usage with
      | none => simp [candidateOf, hm, hu] at hcand
      | some u2 =>
        cases hs : e.isSidechain with
        | true => simp [candidateOf, hm, hu, hs] at hcand
        | false =>
          cases htf : e.timestamp with
          | empty => simp [candidateOf, hm, hu, hs, htf] at hcand
          | malformed => simp [candidateOf, hm, hu, hs, htf] at hcand
          | valid t2 =>
            simp [candidateOf, hm, hu, hs, htf] at hcand
            exact ⟨e, msg, rfl, hm, by rw [hu, hcand.2], hs,
              by rw [htf, hcand.1]⟩

theorem specStep_trackInv (s : ParseState) (b : Option (Int × Usage)) (l : Line)
    (hinv : trackInv s b) (hz : candidateMsIsZero l = false) :
    trackInv (processLine s l) (specStep b l) := by
  cases hcand : candidateOf l with
  | none =>
    have hstep : specStep b l = b := by simp [specStep, hcand]
    have htrack := processLine_track_of_candidate_none s l hcand
    rw [hstep]
    exact trackInv_congr s (processLine s l) b htrack.1 htrack.2 hinv
  | some p =>
    obtain ⟨t, u⟩ := p
    obtain ⟨e, msg, hl, hm, hu, hs, ht⟩ := candidateOf_inversion l t u hcand
    have htz : t.ms ≠ 0 := by
      subst hl
      simp [candidateMsIsZero, hcand] at hz
      exact hz
    subst hl
    cases b with
    | none =>
      cases hme : s.mostRecentMainChainEntry with
      | some e0 =>
        exfalso
        unfold trackInv at hinv
        rw [hme] at hinv
        exact hinv
      | none =>
        have hmrt : s.mostRecentTimestamp = 0 := by
          unfold trackInv at hinv
          rw [hme] at hinv
          exact hinv
        rw [specStep_candidate_none (Line.entry e) t u hcand,
          processLine_candidate_pos s e msg u t hm hu hs ht (Or.inl hmrt)]
        exact ⟨rfl, htz, msg, hm, hu⟩
    | some p2 =>
      obtain ⟨bt, bu⟩ := p2
      cases hme : s.mostRecentMainChainEntry with
      | none =>
        exfalso
        unfold trackInv at hinv
        rw [hme] at hinv
        exact hinv
      | some e0 =>
        have hinv2 : s.mostRecentTimestamp = bt ∧ bt ≠ 0
            ∧ ∃ msg0, e0.message = some msg0 ∧ msg0.usage = some bu := by
          unfold trackInv at hinv
          rw [hme] at hinv
          exact hinv
        obtain ⟨hbt, hbtz, hmsg0⟩ := hinv2
        rw [specStep_candidate_some (Line.entry e) t u bt bu hcand]
        by_cases hgt : t.ms > bt
        · rw [if_pos hgt,
            processLine_candidate_pos s e msg u t hm hu hs ht
              (Or.inr (by omega))]
          exact ⟨rfl, htz, msg, hm, hu⟩
        · rw [if_neg hgt,
            processLine_candidate_neg s e msg u t hm hu hs ht (by omega)]
          unfold trackInv
          rw [hme]
          exact ⟨hbt, hbtz, hmsg0⟩

theorem foldl_trackInv (lines : List Line) :
    ∀ (s : ParseState) (b : Option (Int × Usage)), trackInv s b →
      (∀ l ∈ lines, candidateMsIsZero l = false) →
      trackInv (lines.foldl processLine s) (lines.foldl specStep b) := by
  induction lines with
  | nil => intro s b h _; exact h
  | cons l rest ih =>
    intro s b h hz
    exact ih (processLine s l) (specStep b l)
      (specStep_trackInv s b l h (hz l (List.mem_cons_self l rest)))
      (fun l' hl' => hz l' (List.mem_cons_of_mem l hl'))

/-- C1 (amended): for every transcript in which no context-length candidate
(main-chain, usage-bearing, parseable-timestamp entry) parses to Go's zero
time instant, the computed context length equals input + cache-read +
cache-creation of the single winning entry: among candidate entries, the
one with the strictly latest instant, ties resolved in favor of the entry
seen first in file order; side-chain entries never win, and with no
candidate the context length is 0.  The zero-instant restriction is forced
by the `mostRecentTimestamp.IsZero()` sentinel, which misfires on that one
instant (see the counterexample). -/
theorem contextLength_eq_spec_selection (lines : List Line)
    (h : ∀ l ∈ lines, candidateMsIsZero l = false) :
    (parseTokenMetrics lines).contextLength = specContextLength lines := by
  have hinv0 : trackInv initialParseState none := by
    unfold trackInv initialParseState
    rfl
  have hfin := foldl_trackInv lines initialParseState none hinv0 h
  show contextLengthOf (List.foldl processLine initialParseState lines)
    = specContextLength lines
  unfold specContextLength specBestCandidate
  cases hb : List.foldl specStep none lines with
  | none =>
    rw [hb] at hfin
    cases hme : (List.foldl processLine initialParseState lines).mostRecentMainChainEntry with
    | some e0 =>
      exfalso
      unfold trackInv at hfin
      rw [hme] at hfin
      exact hfin
    | none =>
      unfold contextLengthOf
      rw [hme]
  | some p =>
    obtain ⟨bt, bu⟩ := p
    rw [hb] at hfin
    cases hme : (List.foldl processLine initialParseState lines).mostRecentMainChainEntry with
    | none =>
      exfalso
      unfold trackInv at hfin
      rw [hme] at hfin
      exact hfin
    | some e0 =>
      have hfin2 : (List.foldl processLine initialParseState lines).mostRecentTimestamp = bt
          ∧ bt ≠ 0
          ∧ ∃ msg0, e0.message = some msg0 ∧ msg0.usage = some bu := by
        unfold trackInv at hfin
        rw [hme] at hfin
        exact hfin
      obtain ⟨_, _, msg0, hmsg0, hus0⟩ := hfin2
      unfold contextLengthOf
      rw [hme]
      simp [hmsg0, hus0]

/-- C1 counterexample: on the transcript `exC1zero` — a main-chain
usage-bearing entry at Go's zero time instant followed by one at a strictly
earlier instant — the code's context length comes from the second, earlier
entry (the `IsZero` sentinel misfires), not from the strictly latest entry
that the claim selects, so the claim as stated is false. -/
theorem contextLength_zero_sentinel_cex :
    (parseTokenMetrics exC1zero).contextLength = 3
    ∧ specContextLength exC1zero = 7
    ∧ (parseTokenMetrics exC1zero).contextLength ≠ specContextLength exC1zero := by
  refine ⟨by decide, by decide, by decide⟩

/-- Closed witness for the amended context-length theorem: on the
context-length selection scenario (three main-chain entries with usage at
increasing instants and a side-chain entry at the latest instant), the
hypothesis holds, the code agrees with the specification's selection, and
the winner is the latest main-chain entry with 40 + 1 + 1 = 42. -/
theorem contextLength_eq_spec_selection_witness :
    (∀ l ∈ exSel, candidateMsIsZero l = false)
    ∧ (parseTokenMetrics exSel).contextLength = specContextLength exSel
    ∧ (parseTokenMetrics exSel).contextLength = 42 :=
  ⟨by decide, contextLength_eq_spec_selection exSel (by decide), by decide⟩

/-- C3 (amended): for an empty transcript path, and for any path whose file
cannot be opened (missing, permission denied), `claude.parseMetrics`
returns an absent (nil) TokenMetrics — not the all-zero struct — together
with an absent BlockMetrics and a nil error (its error result is nil on
every input), while `render.ParseTokenMetrics` returns the all-zero
TokenMetrics. -/
theorem metrics_facade_failure_paths (fs : String → Option (List Line))
    (now : GoTime) (localOffset : Int) (p : String)
    (h : p = "" ∨ fs p = none) :
    parseMetricsFacade fs now localOffset p = (none, none, none)
    ∧ renderParseTokenMetrics fs p = zeroTokenMetrics
    ∧ ∀ q, (parseMetricsFacade fs now localOffset q).2.2 = none := by
  refine ⟨?_, ?_, ?_⟩
  · cases h with
    | inl h1 => simp [parseMetricsFacade, h1]
    | inr h1 =>
      by_cases hp : p = ""
      · simp [parseMetricsFacade, hp]
      · simp [parseMetricsFacade, hp, h1]
  · cases h with
    | inl h1 => simp [renderParseTokenMetrics, h1, zeroTokenMetrics]
    | inr h1 =>
      by_cases hp : p = ""
      · simp [renderParseTokenMetrics, hp, zeroTokenMetrics]
      · simp [renderParseTokenMetrics, hp, h1, zeroTokenMetrics]
  · intro q
    by_cases hq : q = ""
    · simp [parseMetricsFacade, hq]
    · cases hfq : fs q with
      | none => simp [parseMetricsFacade, hq, hfq]
      | some lines => simp [parseMetricsFacade, hq, hfq]

/-- C3 counterexample: on the empty path, `claude.parseMetrics` returns an
absent TokenMetrics (`nil`), which is not the all-zero TokenMetrics the
claim states it returns. -/
theorem parseMetrics_empty_path_nil_cex :
    (parseMetricsFacade (fun _ => none) ⟨0, 0⟩ 0 "").1 = none
    ∧ (none : Option ClaudeTokenMetrics) ≠ some zeroTokenMetrics := by
  exact ⟨rfl, by decide⟩

/-- Closed witness for the facade failure-path theorem: the empty path with
a file system on which every open fails. -/
theorem metrics_facade_failure_paths_witness :
    parseMetricsFacade (fun _ => none) ⟨0, 0⟩ 0 "" = (none, none, none)
    ∧ renderParseTokenMetrics (fun _ => none) "" = zeroTokenMetrics :=
  ⟨(metrics_facade_failure_paths (fun _ => none) ⟨0, 0⟩ 0 "" (Or.inl rfl)).1,
   (metrics_facade_failure_paths (fun _ => none) ⟨0, 0⟩ 0 "" (Or.inl rfl)).2.1⟩

/-! Helper lemmas about the block-window calculator. -/

theorem hourMs_eq : hourMs = 3600000 := by norm_num [hourMs]

theorem sessionDurationMs_eq : sessionDurationMs = 18000000 := by
  norm_num [sessionDurationMs]

theorem tsSorted_cons_cons (a b : GoTime) (rest : List GoTime) :
    tsSorted (a :: b :: rest) ↔ a.ms ≤ b.ms ∧ tsSorted (b :: rest) := by
  simp [tsSorted, tsSortedB]

theorem mem_ms_le_getLast (l : List GoTime) :
    ∀ last : GoTime, tsSorted l → l.getLast? = some last →
      ∀ x ∈ l, x.ms ≤ last.ms := by
  induction l with
  | nil => intro last _ hl; simp at hl
  | cons a rest ih =>
    intro last hs hl x hx
    cases rest with
    | nil =>
      simp at hl hx
      subst hl
      subst hx
      exact le_refl _
    | cons b rest2 =>
      have hab : a.ms ≤ b.ms ∧ tsSorted (b :: rest2) :=
        (tsSorted_cons_cons a b rest2).1 hs
      rw [List.getLast?_cons_cons] at hl
      cases hx with
      | head =>
        have hb := ih last hab.2 hl b (List.mem_cons_self b rest2)
        omega
      | tail _ hx2 => exact ih last hab.2 hl x hx2

theorem fcwsGo_mem (sd : Int) :
    ∀ (rest : List GoTime) (cur : GoTime), fcwsGo sd cur rest ∈ cur :: rest := by
  intro rest
  induction rest with
  | nil => intro cur; simp [fcwsGo]
  | cons prev rest2 ih =>
    intro cur
    by_cases hgap : cur.ms - prev.ms ≥ sd
    · simp [fcwsGo, hgap]
    · have := ih prev
      simp only [fcwsGo, hgap, if_false]
      rcases List.mem_cons.mp this with h1 | h1
      · rw [h1]; exact List.mem_cons_of_mem cur (List.mem_cons_self prev rest2)
      · exact List.mem_cons_of_mem cur (List.mem_cons_of_mem prev h1)

theorem findContinuousWorkStart_mem (sd : Int) (ts : List GoTime)
    (h : ts ≠ []) : findContinuousWorkStart sd ts ∈ ts := by
  unfold findContinuousWorkStart
  cases hr : ts.reverse with
  | nil => exact absurd (List.reverse_eq_nil_iff.mp hr) h
  | cons last rest =>
    have hm := fcwsGo_mem sd rest last
    rw [← hr] at hm
    exact List.mem_reverse.mp hm

theorem findContinuousWorkStart_singleton (sd : Int) (t : GoTime) :
    findContinuousWorkStart sd [t] = t := by
  simp [findContinuousWorkStart, fcwsGo]

theorem floorToHour_ms_le (t : GoTime) : (floorToHour t).ms ≤ t.ms := by
  unfold floorToHour
  rw [hourMs_eq]
  simp only
  omega

theorem calculateBlockStart_pos (now floored : GoTime) (lo : Int)
    (h : now.ms - floored.ms > sessionDurationMs) :
    calculateBlockStart now floored lo sessionDurationMs
      = { ms := floored.ms
            + ((now.ms - floored.ms) / sessionDurationMs) * sessionDurationMs,
          offset := lo } := by
  unfold calculateBlockStart
  rw [if_pos h]

theorem calculateBlockStart_neg (now floored : GoTime) (lo : Int)
    (h : ¬ (now.ms - floored.ms > sessionDurationMs)) :
    calculateBlockStart now floored lo sessionDurationMs = floored := by
  unfold calculateBlockStart
  rw [if_neg h]

theorem calculateBlockStart_bounds (now floored : GoTime) (lo : Int)
    (h : now.ms - floored.ms > sessionDurationMs) :
    0 ≤ now.ms - (calculateBlockStart now floored lo sessionDurationMs).ms
    ∧ now.ms - (calculateBlockStart now floored lo sessionDurationMs).ms
        < sessionDurationMs := by
  rw [calculateBlockStart_pos now floored lo h]
  rw [sessionDurationMs_eq] at h ⊢
  simp only
  omega

theorem calculateBlockMetrics_some (now : GoTime) (lo : Int)
    (ts : List GoTime) (last : GoTime) (hl : ts.getLast? = some last)
    (hrecent : ¬ (now.ms - last.ms > sessionDurationMs)) :
    calculateBlockMetrics now lo ts
      = some { startTime :=
                 calculateBlockStart now
                   (floorToHour (findContinuousWorkStart sessionDurationMs ts))
                   lo sessionDurationMs,
               lastActivity := last } := by
  unfold calculateBlockMetrics
  rw [hl]
  simp only [if_neg hrecent]

theorem calculateBlockMetrics_some_inv (now : GoTime) (lo : Int)
    (ts : List GoTime) (bm : ClaudeBlockMetrics)
    (h : calculateBlockMetrics now lo ts = some bm) :
    ∃ last, ts.getLast? = some last
      ∧ ¬ (now.ms - last.ms > sessionDurationMs)
      ∧ bm.startTime
          = calculateBlockStart now
              (floorToHour (findContinuousWorkStart sessionDurationMs ts))
              lo sessionDurationMs
      ∧ bm.lastActivity = last := by
  cases hl : ts.getLast? with
  | none =>
    exfalso
    unfold calculateBlockMetrics at h
    rw [hl] at h
    exact Option.noConfusion h
  | some last =>
    by_cases hrecent : now.ms - last.ms > sessionDurationMs
    · exfalso
      unfold calculateBlockMetrics at h
      rw [hl] at h
      simp only [if_pos hrecent] at h
      exact Option.noConfusion h
    · rw [calculateBlockMetrics_some now lo ts last hl hrecent] at h
      have hbm := Option.some.inj h
      exact ⟨last, rfl, hrecent, by rw [← hbm], by rw [← hbm]⟩

/-- C7: block metrics are absent exactly when the timestamp sequence is
empty or `now` minus the most recent (last, under the ascending input
contract) timestamp exceeds the 5-hour block duration. -/
theorem blockMetrics_absent_iff (now : GoTime) (localOffset : Int)
    (ts : List GoTime) (hsort : tsSorted ts) :
    calculateBlockMetrics now localOffset ts = none
      ↔ ts = [] ∨ ∃ last, ts.getLast? = some last
          ∧ now.ms - last.ms > sessionDurationMs := by
  cases hl : ts.getLast? with
  | none =>
    have hts : ts = [] := List.getLast?_eq_none_iff.mp hl
    subst hts
    simp [calculateBlockMetrics]
  | some last =>
    by_cases hrecent : now.ms - last.ms > sessionDurationMs
    · have hL : calculateBlockMetrics now localOffset ts = none := by
        unfold calculateBlockMetrics
        rw [hl]
        simp [hrecent]
      rw [hL]
      constructor
      · intro _
        exact Or.inr ⟨last, rfl, hrecent⟩
      · intro _
        rfl
    · rw [calculateBlockMetrics_some now localOffset ts last hl hrecent]
      constructor
      · intro hcontra
        exact Option.noConfusion hcontra
      · intro hOr
        exfalso
        cases hOr with
        | inl hts =>
          subst hts
          simp at hl
        | inr hex =>
          obtain ⟨last2, heq, hrecent2⟩ := hex
          have hll := Option.some.inj heq
          subst hll
          exact hrecent hrecent2

/-- Closed witness for the absence theorem: a single timestamp six hours
before `now` (exceeding the 5-hour threshold) yields absent block metrics. -/
theorem blockMetrics_absent_iff_witness :
    calculateBlockMetrics ⟨21600000, 0⟩ 0 [⟨0, 0⟩] = none :=
  (blockMetrics_absent_iff ⟨21600000, 0⟩ 0 [⟨0, 0⟩] (by decide)).mpr
    (Or.inr ⟨⟨0, 0⟩, by decide, by decide⟩)

/-- C6: when the elapsed time from the floored continuous-work start to
`now` exceeds one block duration, the block start is the floored start
advanced by floor(elapsed / blockDuration) whole block durations, landing
within one block duration of `now`; otherwise the floored start is
returned unchanged. -/
theorem blockStart_advancement (now floored : GoTime) (localOffset : Int) :
    (now.ms - floored.ms > sessionDurationMs →
      (calculateBlockStart now floored localOffset sessionDurationMs).ms
          = floored.ms
            + ((now.ms - floored.ms) / sessionDurationMs) * sessionDurationMs
      ∧ 0 ≤ now.ms
          - (calculateBlockStart now floored localOffset sessionDurationMs).ms
      ∧ now.ms - (calculateBlockStart now floored localOffset sessionDurationMs).ms
          < sessionDurationMs)
    ∧ (now.ms - floored.ms ≤ sessionDurationMs →
        calculateBlockStart now floored localOffset sessionDurationMs = floored) := by
  constructor
  · intro h
    have hb := calculateBlockStart_bounds now floored localOffset h
    refine ⟨?_, hb.1, hb.2⟩
    rw [calculateBlockStart_pos now floored localOffset h]
  · intro h
    exact calculateBlockStart_neg now floored localOffset (by omega)

/-- Closed witness for the advancement theorem: a floored start 5.5 hours
before `now` advances by one whole block and lands within one block
duration of `now`. -/
theorem blockStart_advancement_witness :
    (19800000 : Int)
        - (calculateBlockStart ⟨19800000, 0⟩ ⟨0, 0⟩ 0 sessionDurationMs).ms
      < sessionDurationMs :=
  ((blockStart_advancement ⟨19800000, 0⟩ ⟨0, 0⟩ 0).1 (by decide)).2.2

/-- C8: the hour-flooring step zeroes the sub-hour local components (local
epoch milliseconds become a multiple of one hour) while preserving the
whole-hour local index — hence year, month, day and hour — and the zone
offset; and a single timestamp whose instant equals `now` yields a present
block whose start is that timestamp floored to its hour and whose last
activity is that timestamp. -/
theorem floorToHour_spec (t now : GoTime) (localOffset : Int) :
    ((floorToHour t).ms + (floorToHour t).offset) % hourMs = 0
    ∧ ((floorToHour t).ms + (floorToHour t).offset) / hourMs
        = (t.ms + t.offset) / hourMs
    ∧ (floorToHour t).offset = t.offset
    ∧ (t.ms = now.ms →
        calculateBlockMetrics now localOffset [t]
          = some { startTime := floorToHour t, lastActivity := t }) := by
  refine ⟨?_, ?_, rfl, ?_⟩
  · unfold floorToHour
    rw [hourMs_eq]
    simp only
    omega
  · unfold floorToHour
    rw [hourMs_eq]
    simp only
    omega
  · intro heq
    have hrecent : ¬ (now.ms - t.ms > sessionDurationMs) := by
      rw [sessionDurationMs_eq]
      omega
    have h2 : ¬ (now.ms - (floorToHour t).ms > sessionDurationMs) := by
      unfold floorToHour
      rw [sessionDurationMs_eq, hourMs_eq]
      simp only
      omega
    rw [calculateBlockMetrics_some now localOffset [t] t rfl hrecent,
      findContinuousWorkStart_singleton,
      calculateBlockStart_neg now (floorToHour t) localOffset h2]

/-- Closed witness for the hour-flooring theorem: a fresh single event at
`now` (instant 5400000, zone offset one hour) floors to the start of its
local clock hour. -/
theorem floorToHour_spec_witness :
    calculateBlockMetrics ⟨5400000, 0⟩ 0 [⟨5400000, 3600000⟩]
      = some { startTime := ⟨3600000, 3600000⟩,
               lastActivity := ⟨5400000, 3600000⟩ } := by
  have h := (floorToHour_spec ⟨5400000, 3600000⟩ ⟨5400000, 0⟩ 0).2.2.2 rfl
  rw [h]
  have h2 : floorToHour ⟨5400000, 3600000⟩ = ⟨3600000, 3600000⟩ := by decide
  rw [h2]

/-- C4 counterexample: a single timestamp 4 hours 59 minutes before `now`
whose hour-floor lies more than one block duration back: the advancement
step pushes the block start past the last activity time, so a present
block start is not always at most the last activity time. -/
theorem blockStart_after_lastActivity_cex :
    calculateBlockMetrics ⟨37800000, 0⟩ 0 [⟨19860000, 0⟩]
      = some { startTime := ⟨36000000, 0⟩, lastActivity := ⟨19860000, 0⟩ }
    ∧ ¬ ((36000000 : Int) ≤ 19860000) := by
  exact ⟨by decide, by decide⟩

/-- C4 (amended): for every ascending timestamp sequence whose elements are
all at most `now`, a present block start is at most `now`; and it is at
most the last activity time whenever the elapsed time from the floored
continuous-work start to `now` is within one block duration (i.e. the
multi-block advancement step does not fire — when it fires it can push the
start past the last activity, as the counterexample shows). -/
theorem blockStart_le_now (now : GoTime) (localOffset : Int)
    (ts : List GoTime) (hsort : tsSorted ts)
    (hle : ∀ t ∈ ts, t.ms ≤ now.ms) (bm : ClaudeBlockMetrics)
    (h : calculateBlockMetrics now localOffset ts = some bm) :
    bm.startTime.ms ≤ now.ms
    ∧ (now.ms - (floorToHour (findContinuousWorkStart sessionDurationMs ts)).ms
          ≤ sessionDurationMs →
        bm.startTime.ms ≤ bm.lastActivity.ms) := by
  obtain ⟨last, hl, hrecent, hst, hla⟩ :=
    calculateBlockMetrics_some_inv now localOffset ts bm h
  have hne : ts ≠ [] := by
    intro hts
    subst hts
    simp at hl
  have hcwsmem := findContinuousWorkStart_mem sessionDurationMs ts hne
  have hcwsle : (findContinuousWorkStart sessionDurationMs ts).ms ≤ now.ms :=
    hle _ hcwsmem
  have hfloor := floorToHour_ms_le (findContinuousWorkStart sessionDurationMs ts)
  constructor
  · by_cases hadv : now.ms
        - (floorToHour (findContinuousWorkStart sessionDurationMs ts)).ms
        > sessionDurationMs
    · have hb := calculateBlockStart_bounds now
        (floorToHour (findContinuousWorkStart sessionDurationMs ts))
        localOffset hadv
      rw [hst]
      omega
    · rw [hst, calculateBlockStart_neg now
        (floorToHour (findContinuousWorkStart sessionDurationMs ts))
        localOffset hadv]
      omega
  · intro hyp
    have hadv : ¬ (now.ms
        - (floorToHour (findContinuousWorkStart sessionDurationMs ts)).ms
        > sessionDurationMs) := by omega
    rw [hst, hla, calculateBlockStart_neg now
      (floorToHour (findContinuousWorkStart sessionDurationMs ts))
      localOffset hadv]
    have hcwslast : (findContinuousWorkStart sessionDurationMs ts).ms ≤ last.ms :=
      mem_ms_le_getLast ts last hsort hl _ hcwsmem
    omega

/-- Closed witness for the amended start-bound theorem: a single fresh
timestamp at `now`. -/
theorem blockStart_le_now_witness :
    (({ startTime := ⟨0, 0⟩, lastActivity := ⟨1000, 0⟩ }
        : ClaudeBlockMetrics)).startTime.ms ≤ (1000 : Int) :=
  (blockStart_le_now ⟨1000, 0⟩ 0 [⟨1000, 0⟩] (by decide) (by decide)
    { startTime := ⟨0, 0⟩, lastActivity := ⟨1000, 0⟩ } (by decide)).1

/-- C10: for every non-empty ascending timestamp sequence whose elements
are all at most `now`, a present block start lies within one block
duration of `now`: `0 ≤ now − start ≤ 5 hours`, in both the
no-advancement branch and the multi-block advancement branch. -/
theorem blockStart_within_one_block (now : GoTime) (localOffset : Int)
    (ts : List GoTime) (hne : ts ≠ []) (hsort : tsSorted ts)
    (hle : ∀ t ∈ ts, t.ms ≤ now.ms) (bm : ClaudeBlockMetrics)
    (h : calculateBlockMetrics now localOffset ts = some bm) :
    0 ≤ now.ms - bm.startTime.ms
    ∧ now.ms - bm.startTime.ms ≤ sessionDurationMs := by
  obtain ⟨last, hl, hrecent, hst, hla⟩ :=
    calculateBlockMetrics_some_inv now localOffset ts bm h
  have hcwsmem := findContinuousWorkStart_mem sessionDurationMs ts hne
  have hcwsle : (findContinuousWorkStart sessionDurationMs ts).ms ≤ now.ms :=
    hle _ hcwsmem
  have hfloor := floorToHour_ms_le (findContinuousWorkStart sessionDurationMs ts)
  by_cases hadv : now.ms
      - (floorToHour (findContinuousWorkStart sessionDurationMs ts)).ms
      > sessionDurationMs
  · have hb := calculateBlockStart_bounds now
      (floorToHour (findContinuousWorkStart sessionDurationMs ts))
      localOffset hadv
    rw [hst]
    omega
  · rw [hst, calculateBlockStart_neg now
      (floorToHour (findContinuousWorkStart sessionDurationMs ts))
      localOffset hadv]
    omega

/-- Closed witness for the within-one-block theorem: two timestamps one
hour apart ending at `now`. -/
theorem blockStart_within_one_block_witness :
    0 ≤ (7200000 : Int)
        - (({ startTime := ⟨3600000, 0⟩, lastActivity := ⟨7200000, 0⟩ }
            : ClaudeBlockMetrics)).startTime.ms
    ∧ (7200000 : Int)
        - (({ startTime := ⟨3600000, 0⟩, lastActivity := ⟨7200000, 0⟩ }
            : ClaudeBlockMetrics)).startTime.ms ≤ sessionDurationMs :=
  blockStart_within_one_block ⟨7200000, 0⟩ 0 [⟨3600000, 0⟩, ⟨7200000, 0⟩]
    (by decide) (by decide) (by decide)
    { startTime := ⟨3600000, 0⟩, lastActivity := ⟨7200000, 0⟩ } (by decide)

theorem fcwsGo_split (sd : Int) :
    ∀ (rest : List GoTime) (cur : GoTime),
      ∃ suf2 pre2, rest = suf2 ++ pre2
        ∧ (cur :: suf2).getLast? = some (fcwsGo sd cur rest)
        ∧ List.Chain' (fun a b => a.ms - b.ms < sd) (cur :: suf2)
        ∧ (pre2 = [] ∨ ∃ p0, pre2.head? = some p0
            ∧ (fcwsGo sd cur rest).ms - p0.ms ≥ sd) := by
  intro rest
  induction rest with
  | nil =>
    intro cur
    exact ⟨[], [], rfl, rfl, List.chain'_singleton cur, Or.inl rfl⟩
  | cons prev rest2 ih =>
    intro cur
    by_cases hgap : cur.ms - prev.ms ≥ sd
    · refine ⟨[], prev :: rest2, rfl, ?_, List.chain'_singleton cur, ?_⟩
      · simp [fcwsGo, hgap]
      · right
        refine ⟨prev, rfl, ?_⟩
        simp [fcwsGo, hgap]
    · obtain ⟨suf2, pre2, hsplit, hval, hchain, hbd⟩ := ih prev
      have hstep : fcwsGo sd cur (prev :: rest2) = fcwsGo sd prev rest2 := by
        simp [fcwsGo, hgap]
      refine ⟨prev :: suf2, pre2, ?_, ?_, ?_, ?_⟩
      · rw [hstep] at *
        simp [hsplit]
      · rw [hstep, List.getLast?_cons_cons]
        exact hval
      · rw [List.chain'_cons]
        exact ⟨by omega, hchain⟩
      · rw [hstep]
        exact hbd

/-- C5: for every non-empty ascending timestamp sequence, the
continuous-work start is the head of a suffix reaching the end of the
sequence within which every adjacent gap is strictly smaller than the
5-hour block duration, and whose boundary gap (when a prefix remains) is
at least the block duration — i.e. the earliest timestamp reachable from
the most recent one through a chain of adjacent gaps each strictly below
the threshold, the walk stopping at the first gap at or above it.  In
particular a single-element sequence yields that element, and a sequence
whose every consecutive gap is at least the threshold yields the most
recent element. -/
theorem continuousWorkStart_spec (ts : List GoTime) (hne : ts ≠ [])
    (hsort : tsSorted ts) :
    (∃ pre suf, ts = pre ++ suf
      ∧ suf.head? = some (findContinuousWorkStart sessionDurationMs ts)
      ∧ List.Chain' (fun a b => b.ms - a.ms < sessionDurationMs) suf
      ∧ (pre = [] ∨ ∃ p0, pre.getLast? = some p0
          ∧ (findContinuousWorkStart sessionDurationMs ts).ms - p0.ms
              ≥ sessionDurationMs))
    ∧ (∀ t, ts = [t] → findContinuousWorkStart sessionDurationMs ts = t)
    ∧ (List.Chain' (fun a b => b.ms - a.ms ≥ sessionDurationMs) ts →
        ts.getLast? = some (findContinuousWorkStart sessionDurationMs ts)) := by
  refine ⟨?_, ?_, ?_⟩
  · cases hr : ts.reverse with
    | nil => exact absurd (List.reverse_eq_nil_iff.mp hr) hne
    | cons last rest =>
      obtain ⟨suf2, pre2, hsplit, hval, hchain, hbd⟩ :=
        fcwsGo_split sessionDurationMs rest last
      have hfc : findContinuousWorkStart sessionDurationMs ts
          = fcwsGo sessionDurationMs last rest := by
        unfold findContinuousWorkStart
        rw [hr]
      refine ⟨pre2.reverse, (last :: suf2).reverse, ?_, ?_, ?_, ?_⟩
      · have hts : ts = (last :: rest).reverse := by
          rw [← hr, List.reverse_reverse]
        rw [hts, List.reverse_cons, hsplit, List.reverse_append,
          List.append_assoc, ← List.reverse_cons]
      · rw [List.head?_reverse, hfc]
        exact hval
      · rw [List.chain'_reverse]
        exact hchain
      · cases hbd with
        | inl hp =>
          left
          rw [hp]
          rfl
        | inr hex =>
          obtain ⟨p0, hp0, hge⟩ := hex
          right
          refine ⟨p0, ?_, by rw [hfc]; exact hge⟩
          rw [List.getLast?_reverse]
          exact hp0
  · intro t ht
    subst ht
    exact findContinuousWorkStart_singleton sessionDurationMs t
  · intro hch
    cases hr : ts.reverse with
    | nil => exact absurd (List.reverse_eq_nil_iff.mp hr) hne
    | cons last rest =>
      have hfc : findContinuousWorkStart sessionDurationMs ts
          = fcwsGo sessionDurationMs last rest := by
        unfold findContinuousWorkStart
        rw [hr]
      have hlast : ts.getLast? = some last := by
        rw [← List.head?_reverse, hr]
        rfl
      rw [hlast, hfc]
      have hchrev : List.Chain'
          (fun a b => a.ms - b.ms ≥ sessionDurationMs) ts.reverse := by
        rw [List.chain'_reverse]
        exact hch
      rw [hr] at hchrev
      cases rest with
      | nil => rfl
      | cons prev rest2 =>
        have hgap : last.ms - prev.ms ≥ sessionDurationMs :=
          (List.chain'_cons.mp hchrev).1
        simp [fcwsGo, hgap]

/-- Closed witness for the continuous-work-start theorem: the gap-splits
scenario with timestamps at now − 7h, now − 6h, now − 1h and now
(now = 36000000): the streak start is now − 1h, before the 5-hour gap. -/
theorem continuousWorkStart_spec_witness :
    (∃ pre suf,
        [(⟨10800000, 0⟩ : GoTime), ⟨14400000, 0⟩, ⟨32400000, 0⟩, ⟨36000000, 0⟩]
          = pre ++ suf
      ∧ suf.head? = some (findContinuousWorkStart sessionDurationMs
          [⟨10800000, 0⟩, ⟨14400000, 0⟩, ⟨32400000, 0⟩, ⟨36000000, 0⟩])
      ∧ List.Chain' (fun a b => b.ms - a.ms < sessionDurationMs) suf
      ∧ (pre = [] ∨ ∃ p0, pre.getLast? = some p0
          ∧ (findContinuousWorkStart sessionDurationMs
              [⟨10800000, 0⟩, ⟨14400000, 0⟩, ⟨32400000, 0⟩, ⟨36000000, 0⟩]).ms
              - p0.ms ≥ sessionDurationMs))
    ∧ findContinuousWorkStart sessionDurationMs
        [⟨10800000, 0⟩, ⟨14400000, 0⟩, ⟨32400000, 0⟩, ⟨36000000, 0⟩]
        = ⟨32400000, 0⟩ :=
  ⟨(continuousWorkStart_spec
      [⟨10800000, 0⟩, ⟨14400000, 0⟩, ⟨32400000, 0⟩, ⟨36000000, 0⟩]
      (by decide) (by decide)).1,
   by decide⟩
